import Mathlib

/-!
Verification of the rag-augmented-node retrieval pipeline.

This file gives a shallow embedding, in Lean 4, of the core of the
repository: the local vector store (`src/vectorStore.js`), the MMR-style
diversity selector, the cached augmentation / embedding / answer layers and
the retry wrapper of the improvised `ask.js` pipeline, together with
theorems settling the frozen specification claims.

Modelling conventions:
* JavaScript numbers are modelled as exact rationals (`ℚ`); the claims under
  scrutiny are structural (ordering, merging, acceptance tests, cache-key
  equality) and do not concern floating-point rounding.
* `Array.prototype.sort` with comparator `(a, b) => b.score - a.score` is,
  per the ECMAScript specification, a stable sort; a stable sort over a
  total preorder is unique, so it is modelled by a stable insertion sort
  (`stableSort`).
* A JavaScript `Map` (insertion-ordered, `set` on an existing key replaces
  the value in place) is modelled by an association list with exactly that
  update rule, and plain objects used as caches the same way.
* Fallible external calls are modelled by `Except JsError` values supplied
  as parameters; platform builtins the source invokes (`JSON.parse`,
  `String.prototype.trim`, `toLowerCase`, `includes`, `Math.imul`) are
  modelled by explicit executable Lean functions below.
-/

/-- Lowercase a single character, ASCII range, as `toLowerCase` does. -/
def charLower (c : Char) : Char :=
  if 65 ≤ c.toNat ∧ c.toNat ≤ 90 then Char.ofNat (c.toNat + 32) else c

/-- Model of `String.prototype.toLowerCase` (ASCII fragment). -/
def jsToLower (s : String) : String :=
  String.mk (s.data.map charLower)

/-- Whitespace characters removed by `String.prototype.trim` (ASCII fragment). -/
def jsWhitespace (c : Char) : Bool :=
  c = ' ' ∨ c = '\t' ∨ c = '\n' ∨ c = '\r'

/-- Model of `String.prototype.trim`: strip leading and trailing whitespace. -/
def jsTrim (s : String) : String :=
  String.mk (((s.data.dropWhile jsWhitespace).reverse.dropWhile jsWhitespace).reverse)

/-- Does the list `p` occur at the head of `l`?  Helper for `containsSub`. -/
def headMatches : List Char → List Char → Bool
  | [], _ => true
  | _ :: _, [] => false
  | a :: as, b :: bs => a = b && headMatches as bs

/-- Does the pattern occur anywhere in the list?  Helper for `containsSub`. -/
def hasSub (p : List Char) : List Char → Bool
  | [] => headMatches p []
  | c :: cs => headMatches p (c :: cs) || hasSub p cs

/-- Model of `String.prototype.includes`. -/
def containsSub (s pat : String) : Bool :=
  hasSub pat.data s.data

/-- `hashKey` (`ask.js`): 32-bit FNV-1a over the UTF-16 code units of the
string.  `h ^= charCode; h = Math.imul(h, 16777619)` is exactly
multiplication and xor modulo `2^32` on the unsigned reading of the state. -/
def hashKey (s : String) : Nat :=
  s.data.foldl (fun h c => ((h ^^^ c.toNat) * 16777619) % 4294967296) 2166136261

/-- Single hexadecimal digit, lowercase, as produced by `toString(16)`. -/
def hexDigitChar (n : Nat) : Char :=
  if n < 10 then Char.ofNat (48 + n) else Char.ofNat (87 + n)

/-- Fuel-indexed digit expansion of a natural number in base 16. -/
def hexAux : Nat → Nat → List Char
  | 0, _ => []
  | f + 1, n => if n = 0 then [] else hexAux f (n / 16) ++ [hexDigitChar (n % 16)]

/-- Model of `(h >>> 0).toString(16)`: lowercase hexadecimal rendering. -/
def toHex (n : Nat) : String :=
  if n = 0 then "0" else String.mk (hexAux (n + 1) n)

/-- Numeric value of one lowercase hexadecimal digit; inverse of `hexDigitChar`. -/
def hexVal (c : Char) : Nat :=
  if 97 ≤ c.toNat then c.toNat - 87 else c.toNat - 48

/-- Read back a hexadecimal digit list as a number; inverse of `hexAux`. -/
def ofHexDigits (l : List Char) : Nat :=
  l.foldl (fun a c => a * 16 + hexVal c) 0

theorem hexVal_hexDigitChar {k : Nat} (h : k < 16) : hexVal (hexDigitChar k) = k := by
  interval_cases k <;> rfl

theorem ofHexDigits_append_singleton (l : List Char) (c : Char) :
    ofHexDigits (l ++ [c]) = ofHexDigits l * 16 + hexVal c := by
  simp [ofHexDigits, List.foldl_append]

theorem ofHexDigits_hexAux : ∀ f n, n ≤ f → ofHexDigits (hexAux f n) = n := by
  intro f
  induction f with
  | zero => intro n hn; interval_cases n; rfl
  | succ f ih =>
    intro n hn
    by_cases h0 : n = 0
    · subst h0; simp [hexAux, ofHexDigits]
    · have hdiv : n / 16 ≤ f := by
        have : n / 16 < n := Nat.div_lt_self (Nat.pos_of_ne_zero h0) (by norm_num)
        omega
      rw [hexAux, if_neg h0, ofHexDigits_append_singleton, ih _ hdiv,
        hexVal_hexDigitChar (Nat.mod_lt _ (by norm_num))]
      omega

theorem toHex_injective : Function.Injective toHex := by
  intro m n h
  by_cases hm : m = 0 <;> by_cases hn : n = 0
  · omega
  · exfalso
    rw [toHex, if_pos hm, toHex, if_neg hn] at h
    have hdata : ['0'] = hexAux (n + 1) n := congrArg String.data h
    have := ofHexDigits_hexAux (n + 1) n (by omega)
    rw [← hdata] at this
    simp [ofHexDigits, hexVal] at this
    omega
  · exfalso
    rw [toHex, if_neg hm, toHex, if_pos hn] at h
    have hdata : hexAux (m + 1) m = ['0'] := congrArg String.data h
    have := ofHexDigits_hexAux (m + 1) m (by omega)
    rw [hdata] at this
    simp [ofHexDigits, hexVal] at this
    omega
  · rw [toHex, if_neg hm, toHex, if_neg hn] at h
    have hdata : hexAux (m + 1) m = hexAux (n + 1) n := congrArg String.data h
    have h1 := ofHexDigits_hexAux (m + 1) m (by omega)
    have h2 := ofHexDigits_hexAux (n + 1) n (by omega)
    rw [hdata] at h1
    omega

/-- A chunk item of the vector store (`{id, source, chunkIndex, content,
embeddingUnit}` in `vectorStore.js`).  Embeddings are unit vectors of
rationals. -/
structure Item where
  id : String
  source : String
  chunkIndex : Nat
  content : String
  embeddingUnit : List ℚ
deriving DecidableEq

/-- A search hit `{item, score}`. -/
structure Hit where
  item : Item
  score : ℚ
deriving DecidableEq

/-- Dot product of two vectors of equal dimensionality. -/
def listDot (a b : List ℚ) : ℚ :=
  (a.zipWith (· * ·) b).sum

/-- Modelled from the spec: `cosineSimUnitVectors` lives in `lib.js`, which is
not part of the provided sources; §8 of the spec fixes it on unit vectors:
"For unit vectors a, b: similarity(a,b) = dot(a,b)". -/
def cosineSimUnitVectors (a b : List ℚ) : ℚ :=
  listDot a b

/-- The item ids of a list of hits. -/
def idsOf (hs : List Hit) : List String :=
  hs.map (fun h => h.item.id)

/-- Stable insertion into a sorted list: the new element goes in front of the
first element it may precede, hence after every earlier-inserted tie. -/
def insertStable (le : α → α → Bool) (a : α) : List α → List α
  | [] => [a]
  | b :: bs => if le a b then a :: b :: bs else b :: insertStable le a bs

/-- Stable sort; models the ECMAScript stable `Array.prototype.sort`. -/
def stableSort (le : α → α → Bool) : List α → List α
  | [] => []
  | a :: as => insertStable le a (stableSort le as)

theorem insertStable_perm (le : α → α → Bool) (a : α) :
    ∀ s : List α, (insertStable le a s).Perm (a :: s) := by
  intro s
  induction s with
  | nil => simp [insertStable]
  | cons b bs ih =>
    rw [insertStable]
    by_cases h : le a b
    · simp [h]
    · simp only [h, if_false]
      exact (ih.cons b).trans (List.Perm.swap a b bs)

theorem stableSort_perm (le : α → α → Bool) : ∀ l : List α, (stableSort le l).Perm l := by
  intro l
  induction l with
  | nil => simp [stableSort]
  | cons a as ih =>
    rw [stableSort]
    exact (insertStable_perm le a (stableSort le as)).trans (ih.cons a)

theorem mem_stableSort (le : α → α → Bool) (l : List α) (x : α) :
    x ∈ stableSort le l ↔ x ∈ l :=
  (stableSort_perm le l).mem_iff

theorem length_stableSort (le : α → α → Bool) (l : List α) :
    (stableSort le l).length = l.length :=
  (stableSort_perm le l).length_eq

theorem pairwise_insertStable (le : α → α → Bool)
    (htotal : ∀ a b, le a b = true ∨ le b a = true)
    (htrans : ∀ a b c, le a b = true → le b c = true → le a c = true)
    (a : α) : ∀ s : List α, s.Pairwise (fun x y => le x y = true) →
      (insertStable le a s).Pairwise (fun x y => le x y = true) := by
  intro s
  induction s with
  | nil => intro _; simp [insertStable]
  | cons b bs ih =>
    intro hs
    rw [List.pairwise_cons] at hs
    rw [insertStable]
    by_cases h : le a b
    · rw [if_pos h, List.pairwise_cons]
      refine ⟨?_, List.pairwise_cons.mpr hs⟩
      intro x hx
      rcases List.mem_cons.mp hx with rfl | hx
      · exact h
      · exact htrans a b x h (hs.1 x hx)
    · rw [if_neg h, List.pairwise_cons]
      have hba : le b a = true := (htotal a b).resolve_left (by simpa using h)
      refine ⟨?_, ih hs.2⟩
      intro x hx
      rcases List.mem_cons.mp ((insertStable_perm le a bs).mem_iff.mp hx) with rfl | hx
      · exact hba
      · exact hs.1 x hx

theorem sorted_stableSort (le : α → α → Bool)
    (htotal : ∀ a b, le a b = true ∨ le b a = true)
    (htrans : ∀ a b c, le a b = true → le b c = true → le a c = true) :
    ∀ l : List α, (stableSort le l).Pairwise (fun x y => le x y = true) := by
  intro l
  induction l with
  | nil => simp [stableSort]
  | cons a as ih =>
    rw [stableSort]
    exact pairwise_insertStable le htotal htrans a _ ih

theorem insertStable_decomp (le : α → α → Bool) (a : α) :
    ∀ s : List α, ∃ s₁ s₂, s = s₁ ++ s₂ ∧
      insertStable le a s = s₁ ++ a :: s₂ ∧ ∀ b ∈ s₁, le a b = false := by
  intro s
  induction s with
  | nil => exact ⟨[], [], rfl, rfl, by simp⟩
  | cons b bs ih =>
    by_cases h : le a b
    · exact ⟨[], b :: bs, rfl, by rw [insertStable, if_pos h]; rfl, by simp⟩
    · obtain ⟨s₁, s₂, he, hi, hf⟩ := ih
      refine ⟨b :: s₁, s₂, by rw [he]; rfl, ?_, ?_⟩
      · rw [insertStable, if_neg h, hi]; rfl
      · intro x hx
        rcases List.mem_cons.mp hx with rfl | hx
        · simpa using h
        · exact hf x hx

theorem sublist_insertStable (le : α → α → Bool) (a : α) (s : List α) :
    s.Sublist (insertStable le a s) := by
  obtain ⟨s₁, s₂, he, hi, -⟩ := insertStable_decomp le a s
  rw [hi, he]
  exact (List.Sublist.cons a (List.Sublist.refl s₂)).append_left s₁

theorem sublist_stableSort (le : α → α → Bool) :
    ∀ (l c : List α), c.Pairwise (fun x y => le x y = true) → c.Sublist l →
      (c.Sublist (stableSort le l)) := by
  intro l
  induction l with
  | nil => intro c _ hc; simpa [stableSort] using hc
  | cons a as ih =>
    intro c hp hc
    rw [stableSort]
    cases hc with
    | cons _ h =>
      exact (ih c hp h).trans (sublist_insertStable le a (stableSort le as))
    | cons₂ _ h =>
      rename_i c'
      rw [List.pairwise_cons] at hp
      have hc' : c'.Sublist (stableSort le as) := ih c' hp.2 h
      obtain ⟨s₁, s₂, he, hi, hf⟩ := insertStable_decomp le a (stableSort le as)
      rw [hi]
      have hdisj : ∀ x ∈ c', x ∉ s₁ := by
        intro x hx hmem
        have h1 : le a x = true := hp.1 x hx
        have h2 : le a x = false := hf x hmem
        rw [h1] at h2
        exact Bool.true_eq_false.mp h2
      have : c'.Sublist s₂ := List.Sublist.of_sublist_append_right hdisj (he ▸ hc')
      exact List.sublist_append_of_sublist_right (this.cons₂ a)

/-- Comparator of `search`: the JS comparator `(a, b) => b.score - a.score`
orders `a` before `b` exactly when `b.score ≤ a.score` (descending). -/
def hitLe (a b : Hit) : Bool :=
  decide (b.score ≤ a.score)

theorem hitLe_total : ∀ a b : Hit, hitLe a b = true ∨ hitLe b a = true := by
  intro a b
  simp only [hitLe, decide_eq_true_eq]
  exact le_total b.score a.score

theorem hitLe_trans : ∀ a b c : Hit, hitLe a b = true → hitLe b c = true → hitLe a c = true := by
  intro a b c
  simp only [hitLe, decide_eq_true_eq]
  intro h1 h2
  exact h2.trans h1

/-- Score every item of the store against one query vector
(the `this.items.map(...)` step of `LocalVectorStore.search`). -/
def scoreHits (items : List Item) (q : List ℚ) : List Hit :=
  items.map (fun it => ⟨it, cosineSimUnitVectors q it.embeddingUnit⟩)

/-- `LocalVectorStore.search(queryEmbeddingUnit, {topK})`: score all items,
sort stably by descending score, return the first `topK`. -/
def search (items : List Item) (q : List ℚ) (topK : Nat) : List Hit :=
  (stableSort hitLe (scoreHits items q)).take topK

/-- One step of the merge map of `searchMulti`: `best.get(id)` followed by
`if (!prev || h.score > prev.score) best.set(h.item.id, h)`.  A JS `Map.set`
on a present key replaces the value in place; on an absent key it appends. -/
def updateBest (best : List Hit) (h : Hit) : List Hit :=
  match best.find? (fun p => decide (p.item.id = h.item.id)) with
  | none => best ++ [h]
  | some prev =>
    if prev.score < h.score then
      best.map (fun p => if p.item.id = h.item.id then h else p)
    else best

/-- `LocalVectorStore.searchMulti(queryEmbeddingUnits, {perQueryTopK,
finalTopK})`: run `search` per query vector, merge keeping the best score per
item id, sort the merged values by descending score, truncate. -/
def searchMulti (items : List Item) (qs : List (List ℚ)) (perQueryTopK finalTopK : Nat) :
    List Hit :=
  let best := qs.foldl (fun b q => (search items q perQueryTopK).foldl updateBest b) []
  (stableSort hitLe best).take finalTopK

/-- All per-query hits, in query order: the concatenation of the per-query
top-`perQueryTopK` results that `searchMulti` feeds into its merge map. -/
def perQueryHits (items : List Item) (qs : List (List ℚ)) (pk : Nat) : List Hit :=
  match qs with
  | [] => []
  | q :: rest => search items q pk ++ perQueryHits items rest pk

/-- The merged, score-sorted candidate list of `searchMulti` before the final
truncation to `finalTopK`. -/
def mergedSorted (items : List Item) (qs : List (List ℚ)) (pk : Nat) : List Hit :=
  stableSort hitLe ((perQueryHits items qs pk).foldl updateBest [])

/-- Index of the first occurrence of a string in a list (list length when
absent). -/
def idxOfStr (a : String) : List String → Nat
  | [] => 0
  | x :: xs => if x = a then 0 else idxOfStr a xs + 1

/-- The inner similarity loop of `pickDiverse`: starting from `0`, raise the
running value whenever a picked embedding has a strictly larger dot product
with the candidate's embedding (`if (sim > maxSimToPicked) ...`). -/
def maxSimToPicked (pickedEmbeds : List (List ℚ)) (a : List ℚ) : ℚ :=
  pickedEmbeds.foldl (fun m b => let sim := listDot a b; if m < sim then sim else m) 0

/-- Main loop of `pickDiverse` (`ask.js`): iterate the hits, keeping parallel
lists of picked hits and their embeddings; break once `k` picks are made;
accept a candidate when nothing is picked yet or its MMR score exceeds
`minKeep`. -/
def pickDiverseGo (k : Nat) (lambda minKeep : ℚ) :
    List Hit → List Hit → List (List ℚ) → List Hit
  | [], picked, _ => picked
  | h :: hs, picked, pickedEmbeds =>
    if k ≤ picked.length then picked
    else
      let maxSim := maxSimToPicked pickedEmbeds h.item.embeddingUnit
      let mmrScore := lambda * h.score - (1 - lambda) * maxSim
      if picked.length = 0 ∨ minKeep < mmrScore then
        pickDiverseGo k lambda minKeep hs (picked ++ [h])
          (pickedEmbeds ++ [h.item.embeddingUnit])
      else
        pickDiverseGo k lambda minKeep hs picked pickedEmbeds

/-- `pickDiverse(hits, {k, lambda, minKeep})` from `ask.js`
(defaults `k = CONTEXT_K = 6`, `lambda = 0.8`, `minKeep = 0.1`). -/
def pickDiverse (hits : List Hit) (k : Nat) (lambda minKeep : ℚ) : List Hit :=
  pickDiverseGo k lambda minKeep hits [] []

/-- The largest cosine similarity between a candidate embedding and any
already-picked embedding, `0` when nothing is picked yet — the claim's
reading of `maxSim`, with no clamping at `0` for non-empty picked lists. -/
def largestSim (pickedEmbeds : List (List ℚ)) (a : List ℚ) : ℚ :=
  match pickedEmbeds with
  | [] => 0
  | b :: bs => (bs.map (fun c => listDot a c)).foldl max (listDot a b)

/-- Claim C2's description of the `pickDiverse` loop, transcribed literally:
score each candidate with `maxSim` = the largest cosine similarity to any
picked embedding (`0` when none picked), accept iff the picked list is empty
or the MMR score exceeds `minKeep`, stop at `k` picks. -/
def pickDiverseClaimGo (k : Nat) (lambda minKeep : ℚ) : List Hit → List Hit → List Hit
  | [], picked => picked
  | h :: hs, picked =>
    if k ≤ picked.length then picked
    else
      let maxSim := largestSim (picked.map (fun p => p.item.embeddingUnit))
        h.item.embeddingUnit
      let mmrScore := lambda * h.score - (1 - lambda) * maxSim
      if picked.length = 0 ∨ minKeep < mmrScore then
        pickDiverseClaimGo k lambda minKeep hs (picked ++ [h])
      else
        pickDiverseClaimGo k lambda minKeep hs picked

/-- Claim C2 as stated, as a function: the diversity selector it describes. -/
def pickDiverseClaim (hits : List Hit) (k : Nat) (lambda minKeep : ℚ) : List Hit :=
  pickDiverseClaimGo k lambda minKeep hits []

/-- The amended description of the loop: identical to `pickDiverseClaimGo`
except that `maxSim` is the larger of `0` and the largest cosine similarity
to any picked embedding. -/
def pickDiverseSpecGo (k : Nat) (lambda minKeep : ℚ) : List Hit → List Hit → List Hit
  | [], picked => picked
  | h :: hs, picked =>
    if k ≤ picked.length then picked
    else
      let maxSim := max 0 (largestSim (picked.map (fun p => p.item.embeddingUnit))
        h.item.embeddingUnit)
      let mmrScore := lambda * h.score - (1 - lambda) * maxSim
      if picked.length = 0 ∨ minKeep < mmrScore then
        pickDiverseSpecGo k lambda minKeep hs (picked ++ [h])
      else
        pickDiverseSpecGo k lambda minKeep hs picked

/-- The amended claim C2 as a function. -/
def pickDiverseSpec (hits : List Hit) (k : Nat) (lambda minKeep : ℚ) : List Hit :=
  pickDiverseSpecGo k lambda minKeep hits []

/-- Nested `error` object of an OpenAI-style error (`err.error`). -/
structure JsErrorDetail where
  code : Option String
  message : Option String
deriving DecidableEq

/-- An error thrown by an external call, as inspected by
`classifyOpenAIError`: optional HTTP status, optional code, optional message,
optional nested `error` object.  `none` models a missing (undefined) field. -/
structure JsError where
  status : Option Int
  code : Option String
  message : Option String
  detail : Option JsErrorDetail
deriving DecidableEq

/-- JavaScript `a || b` on possibly-missing strings: keep `a` when it is
present and non-empty (truthy), otherwise fall back to `b`. -/
def jsOrStr (a b : Option String) : Option String :=
  match a with
  | some s => if s = "" then b else some s
  | none => b

/-- Classification result of `classifyOpenAIError`. -/
structure ErrInfo where
  status : Option Int
  code : Option String
  message : String
  isQuota : Bool
  isRateLimit : Bool
  isTransient : Bool
deriving DecidableEq

/-- `classifyOpenAIError(err)` from `ask.js`: quota = 429 with code
`insufficient_quota` or a message containing "quota"; rate limit = 429 with
code `rate_limit_exceeded` or a message containing "rate limit" / "too many
requests"; transient = 5xx status or a message containing "timeout" /
"temporarily". -/
def classifyOpenAIError (err : JsError) : ErrInfo :=
  let status := err.status
  let code := jsOrStr err.code (err.detail.bind (fun d => d.code))
  let message :=
    (jsOrStr err.message (err.detail.bind (fun d => d.message))).getD ""
  let lower := jsToLower message
  let status429 : Bool := decide (status = some 429)
  let status5xx : Bool :=
    match status with
    | some s => decide (500 ≤ s ∧ s ≤ 599)
    | none => false
  let isQuota : Bool := status429 &&
    (decide (code = some "insufficient_quota") || containsSub lower "quota")
  let isRateLimit : Bool := status429 &&
    (decide (code = some "rate_limit_exceeded") || containsSub lower "rate limit" ||
      containsSub lower "too many requests")
  let isTransient : Bool := status5xx ||
    containsSub lower "timeout" || containsSub lower "temporarily"
  ⟨status, code, message, isQuota, isRateLimit, isTransient⟩

/-- Retry loop of `withRetry` (`ask.js`).  `o n` is the outcome of the
`(n+1)`-st invocation of the wrapped function, `rand n` the value of
`Math.random()` drawn before the `(n+1)`-st backoff sleep.  The result pairs
the final outcome with the list of backoff delays slept, in milliseconds:
`min(8000, 500 * 2^attempt) + Math.floor(Math.random() * 250)`.  The loop
length is bounded by the `fuel` argument, which callers instantiate with
`maxRetries` so that the `attempt >= maxRetries` guard always fires first. -/
def withRetryGo (o : Nat → Except JsError α) (rand : Nat → ℚ) (maxRetries : Nat) :
    Nat → Nat → Except JsError α × List ℤ
  | attempt, fuel =>
    match o attempt with
    | .ok a => (.ok a, [])
    | .error err =>
      let info := classifyOpenAIError err
      if info.isQuota then (.error err, [])
      else if !(info.isRateLimit || info.isTransient) || decide (maxRetries ≤ attempt) then
        (.error err, [])
      else
        match fuel with
        | 0 => (.error err, [])
        | f + 1 =>
          let backoffMs : ℤ :=
            min 8000 (500 * 2 ^ attempt) + Int.floor (rand attempt * 250)
          let rest := withRetryGo o rand maxRetries (attempt + 1) f
          (rest.1, backoffMs :: rest.2)

/-- `withRetry(fn, {maxRetries})`: run from attempt `0`. -/
def withRetry (o : Nat → Except JsError α) (rand : Nat → ℚ) (maxRetries : Nat) :
    Except JsError α × List ℤ :=
  withRetryGo o rand maxRetries 0 maxRetries

/-- Lookup in a JS-object-style cache modelled as an association list. -/
def cacheGet (c : List (String × β)) (k : String) : Option β :=
  (c.find? (fun p => decide (p.1 = k))).map (fun p => p.2)

/-- Property assignment on a JS-object-style cache: replace in place when the
key is present, append otherwise. -/
def cacheSet (c : List (String × β)) (k : String) (v : β) : List (String × β) :=
  if c.any (fun p => decide (p.1 = k)) then
    c.map (fun p => if p.1 = k then (k, v) else p)
  else c ++ [(k, v)]

/-- Truthiness of a possibly-absent string-valued cache entry: absent and
empty strings are falsy, everything else truthy. -/
def strTruthy : Option String → Bool
  | some s => decide (s ≠ "")
  | none => false

/-- `GEN_MODEL` default from `ask.js`. -/
def GEN_MODEL : String := "gpt-4.1-mini"

/-- `EMBED_MODEL` default from `ask.js`. -/
def EMBED_MODEL : String := "text-embedding-3-small"

/-- Embedding-cache key `emb:${EMBED_MODEL}:${hashKey(t)}`. -/
def embKey (t : String) : String :=
  "emb:" ++ EMBED_MODEL ++ ":" ++ toHex (hashKey t)

/-- Multi-query augmentation cache key `mq:${GEN_MODEL}:${hashKey(question)}`. -/
def mqKey (question : String) : String :=
  "mq:" ++ GEN_MODEL ++ ":" ++ toHex (hashKey question)

/-- HyDE augmentation cache key `hyde:${GEN_MODEL}:${hashKey(question)}`. -/
def hydeKey (question : String) : String :=
  "hyde:" ++ GEN_MODEL ++ ":" ++ toHex (hashKey question)

/-- Answer cache key `ans:${model}:${hashKey(question)}:${hashKey(context)}`
(`answerWithContextCached` uses `model = GEN_MODEL`). -/
def answerKey (model question context : String) : String :=
  "ans:" ++ model ++ ":" ++ toHex (hashKey question) ++ ":" ++ toHex (hashKey context)

/-- `embedTextsCached(texts, embedCache)`: partition the batch into cache
hits and misses by key presence (an array value is always truthy in JS, so a
present entry is always a hit), issue one `embedTexts` call for the misses
when there are any, store the returned vectors under the miss keys, and read
every requested key back from the cache in the original order.  The third
result component records the single external call made, `none` when the
batch was served entirely from the cache.  The `svc` parameter is the
external embedding service wrapped in `withRetry`.  `embedStore` is the
`vectors.forEach` store-back step: the `j`-th returned vector is written
under the key of the `j`-th miss, left to right. -/
def embedStore (misses : List String) (vectors : List (List ℚ))
    (embedCache : List (String × List ℚ)) : List (String × List ℚ) :=
  ((misses.map embKey).zip vectors).foldl (fun c kv => cacheSet c kv.1 kv.2) embedCache

def embedTextsCached (texts : List String) (embedCache : List (String × List ℚ))
    (svc : List String → Except JsError (List (List ℚ))) :
    Except JsError (List (Option (List ℚ)) × List (String × List ℚ) × Option (List String)) :=
  let keys := texts.map embKey
  let misses := texts.filter (fun t => (cacheGet embedCache (embKey t)).isNone)
  if misses.isEmpty then
    .ok (keys.map (cacheGet embedCache), embedCache, none)
  else
    match svc misses with
    | .error e => .error e
    | .ok vectors =>
      let stored := embedStore misses vectors embedCache
      .ok (keys.map (cacheGet stored), stored, some misses)

/-- Outcome of `JSON.parse` plus the `Array.isArray(parsed.queries)` test on
the multi-query response text: the parse throws, or succeeds without a
list-valued `queries` field, or yields a list. -/
inductive MQParse where
  | invalidJson : MQParse
  | noQueriesList : MQParse
  | queriesList : List String → MQParse
deriving DecidableEq

/-- The `queries` extraction of `getMultiQueriesCached`: `[]` is the initial
value, kept on a parse failure or a missing list field; a list field is
truncated with `.slice(0, 3)`. -/
def extractQueries : MQParse → List String
  | .invalidJson => []
  | .noQueriesList => []
  | .queriesList qs => qs.take 3

/-- `getMultiQueriesCached(question, cache)`: serve from the augmentation
cache when the entry is present (arrays are always truthy); otherwise invoke
the generation service (`svc`, already wrapped in `withRetry`), extract the
queries from its text, store and return them.  The boolean records whether
the underlying service was invoked. -/
def getMultiQueriesCached (question : String) (cache : List (String × List String))
    (svc : Except JsError MQParse) :
    Except JsError (List String × List (String × List String) × Bool) :=
  match cacheGet cache (mqKey question) with
  | some v => .ok (v, cache, false)
  | none =>
    match svc with
    | .error e => .error e
    | .ok parsed =>
      let queries := extractQueries parsed
      .ok (queries, cacheSet cache (mqKey question) queries, true)

/-- `getHydeCached(question, cache)`: the cache test is `if (cache[key])`, so
an entry holding the empty string is NOT treated as a hit; on a miss the
generation service is invoked, its output text trimmed, stored and
returned.  The boolean records whether the underlying service was invoked. -/
def getHydeCached (question : String) (cache : List (String × String))
    (svc : Except JsError String) :
    Except JsError (String × List (String × String) × Bool) :=
  if strTruthy (cacheGet cache (hydeKey question)) then
    .ok ((cacheGet cache (hydeKey question)).getD "", cache, false)
  else
    match svc with
    | .error e => .error e
    | .ok text =>
      let hyde := jsTrim text
      .ok (hyde, cacheSet cache (hydeKey question) hyde, true)

/-- `answerWithContextCached(question, context, answerCache)`: keyed by
`(model, question hash, context hash)`; the cache test is
`if (answerCache[key])`, so an empty cached answer is not a hit; on a miss
the generation service (`svc`) is invoked and its output stored verbatim.
The boolean records whether the underlying service was invoked. -/
def answerWithContextCached (question context : String)
    (answerCache : List (String × String)) (svc : Except JsError String) :
    Except JsError (String × List (String × String) × Bool) :=
  let key := answerKey GEN_MODEL question context
  if strTruthy (cacheGet answerCache key) then
    .ok ((cacheGet answerCache key).getD "", answerCache, false)
  else
    match svc with
    | .error e => .error e
    | .ok out => .ok (out, cacheSet answerCache key out, true)

/-- `buildContextBlock(selectedHits)`: source-labelled chunks joined by a
separator line. -/
def buildContextBlock (selectedHits : List Hit) : String :=
  String.intercalate "\n\n---\n\n"
    (selectedHits.map (fun h =>
      "[source: " ++ h.item.source ++ "#" ++ toString h.item.chunkIndex ++ "]\n"
        ++ h.item.content))

/-- `[question, ...rewrites, hyde].filter(Boolean)`: empty strings are falsy
and are dropped. -/
def variantTexts (question : String) (rewrites : List String) (hyde : String) :
    List String :=
  (question :: (rewrites ++ [hyde])).filter (fun t => decide (t ≠ ""))

/-- The augmentation stage of `main` with its `try/catch`: run the
multi-query rewrite (when enabled), then HyDE (when enabled); if either
throws a quota-classified error, swallow it and continue with no rewrites
and no HyDE text; rethrow anything else. -/
def augmentStage (enableMQ enableHyde : Bool)
    (mq : Except JsError (List String)) (hy : Except JsError String) :
    Except JsError (List String × String) :=
  let attempt : Except JsError (List String × String) :=
    match (if enableMQ then mq else .ok []) with
    | .error e => .error e
    | .ok rewrites =>
      match (if enableHyde then hy else .ok "") with
      | .error e => .error e
      | .ok hyde => .ok (rewrites, hyde)
  match attempt with
  | .ok p => .ok p
  | .error e =>
    if (classifyOpenAIError e).isQuota then .ok ([], "") else .error e

/-- Observable outcome of one `main` run: the process exit code, the query
variants used for retrieval, and the printed answer (when one was produced). -/
structure MainResult where
  exitCode : Nat
  variants : List String
  answer : Option String
deriving DecidableEq

/-- The `main` flow of `ask.js`, at the defaults `PER_QUERY_TOPK = 8`,
`FINAL_TOPK = 25`, `CONTEXT_K = 6`, `lambda = 0.8`, `minKeep = 0.1`: usage
check, augmentation with quota degradation, variant embedding (quota ⇒ exit
1, other errors rethrown to the top-level catch, which also exits 1),
multi-query retrieval, diversity selection, context building, cached
answering (same exit-1 handling), exit 0 on success.  External outcomes are
parameters; caches other than the answer cache are elided because the
embedding and augmentation outcomes are already parameters. -/
def runMain (question : String) (enableMQ enableHyde : Bool)
    (mq : Except JsError (List String)) (hy : Except JsError String)
    (embedSvc : List String → Except JsError (List (List ℚ)))
    (items : List Item)
    (answerCache : List (String × String)) (answerSvc : Except JsError String) :
    MainResult :=
  if question = "" then ⟨1, [], none⟩
  else
    match augmentStage enableMQ enableHyde mq hy with
    | .error _ => ⟨1, [], none⟩
    | .ok (rewrites, hyde) =>
      let variants := variantTexts question rewrites hyde
      match embedSvc variants with
      | .error _ => ⟨1, variants, none⟩
      | .ok variantEmbeds =>
        let mergedHits := searchMulti items variantEmbeds 8 25
        let selected := pickDiverse mergedHits 6 (4/5) (1/10)
        let context := buildContextBlock selected
        match answerWithContextCached question context answerCache answerSvc with
        | .error _ => ⟨1, variants, none⟩
        | .ok (answer, _, _) => ⟨0, variants, some answer⟩

theorem cacheGet_map_replace_self (k : String) (v : β) :
    ∀ c : List (String × β), (∃ p ∈ c, p.1 = k) →
      cacheGet (c.map (fun p => if p.1 = k then (k, v) else p)) k = some v := by
  intro c
  induction c with
  | nil => rintro ⟨p, hp, -⟩; cases hp
  | cons q c ih =>
    rintro ⟨p, hp, hpk⟩
    by_cases hq : q.1 = k
    · simp [cacheGet, hq, List.find?_cons_of_pos]
    · rcases List.mem_cons.mp hp with rfl | hp
      · exact absurd hpk hq
      · have := ih ⟨p, hp, hpk⟩
        simpa [cacheGet, hq, List.find?_cons_of_neg] using this

theorem cacheGet_map_replace_ne (k k' : String) (v : β) (h : k ≠ k') :
    ∀ c : List (String × β),
      cacheGet (c.map (fun p => if p.1 = k then (k, v) else p)) k' = cacheGet c k' := by
  intro c
  induction c with
  | nil => rfl
  | cons q c ih =>
    by_cases hq : q.1 = k
    · have h1 : ¬ ((k, v) : String × β).1 = k' := h
      have h2 : ¬ q.1 = k' := by rw [hq]; exact h
      simpa [cacheGet, hq, h1, h2, List.find?_cons_of_neg] using ih
    · by_cases hq' : q.1 = k'
      · unfold cacheGet
        rw [List.map_cons, if_neg hq,
          List.find?_cons_of_pos _ (by simpa using hq'),
          List.find?_cons_of_pos _ (by simpa using hq')]
      · simpa [cacheGet, hq, hq', List.find?_cons_of_neg] using ih

theorem cacheGet_append_absent (c : List (String × β)) (k' : String)
    (tail : List (String × β))
    (h : c.find? (fun p => decide (p.1 = k')) = none) :
    cacheGet (c ++ tail) k' = cacheGet tail k' := by
  unfold cacheGet
  rw [List.find?_append, h]
  rfl

theorem cacheGet_cacheSet_self (c : List (String × β)) (k : String) (v : β) :
    cacheGet (cacheSet c k v) k = some v := by
  unfold cacheSet
  by_cases h : c.any (fun p => decide (p.1 = k))
  · rw [if_pos h]
    rcases List.any_eq_true.mp h with ⟨p, hp, hpk⟩
    simp only [decide_eq_true_eq] at hpk
    exact cacheGet_map_replace_self k v c ⟨p, hp, hpk⟩
  · rw [if_neg h]
    have hnone : c.find? (fun p => decide (p.1 = k)) = none := by
      rw [List.find?_eq_none]
      intro p hp
      simp only [decide_eq_true_eq]
      intro hpk
      exact h (List.any_eq_true.mpr ⟨p, hp, by simp [hpk]⟩)
    rw [cacheGet_append_absent c k _ hnone]
    simp [cacheGet, List.find?]

theorem cacheGet_cacheSet_ne (c : List (String × β)) (k k' : String) (v : β)
    (h : k ≠ k') : cacheGet (cacheSet c k v) k' = cacheGet c k' := by
  unfold cacheSet
  by_cases hmem : c.any (fun p => decide (p.1 = k))
  · rw [if_pos hmem]
    exact cacheGet_map_replace_ne k k' v h c
  · rw [if_neg hmem]
    unfold cacheGet
    rw [List.find?_append]
    have : List.find? (fun p => decide (p.1 = k')) [(k, v)] = none := by
      simp [List.find?, h]
    cases hfind : c.find? (fun p => decide (p.1 = k')) <;> simp [hfind, this]

/-- C9: for every generation-service response to the multi-query rewrite
request, a malformed or unparseable output (invalid JSON, or JSON without a
list-valued `queries` field) yields an empty rewrite list; the parse failure
is recovered locally and never surfaces as an error (the result is always
`.ok` once the service call itself succeeded); and a well-formed response
yields at most 3 rewrites. -/
theorem mq_parse_failure_recovered (question : String)
    (cache : List (String × List String)) (parsed : MQParse) :
    (∃ r, getMultiQueriesCached question cache (.ok parsed) = .ok r) ∧
    (cacheGet cache (mqKey question) = none →
      getMultiQueriesCached question cache (.ok parsed) =
        .ok (extractQueries parsed,
          cacheSet cache (mqKey question) (extractQueries parsed), true)) ∧
    ((parsed = .invalidJson ∨ parsed = .noQueriesList) → extractQueries parsed = []) ∧
    (extractQueries parsed).length ≤ 3 := by
  refine ⟨?_, ?_, ?_, ?_⟩
  · unfold getMultiQueriesCached
    cases h : cacheGet cache (mqKey question) <;> exact ⟨_, rfl⟩
  · intro h
    unfold getMultiQueriesCached
    rw [h]
  · rintro (rfl | rfl) <;> rfl
  · cases parsed with
    | invalidJson => simp [extractQueries]
    | noQueriesList => simp [extractQueries]
    | queriesList qs => simp [extractQueries]

/-- Witness for C9 at a concrete input: an empty cache, a response whose
`queries` list has four entries; the call succeeds, caches, and truncates to
three rewrites, and the malformed outcomes yield `[]`. -/
theorem mq_parse_failure_recovered_witness :
    getMultiQueriesCached "q" [] (.ok (.queriesList ["a", "b", "c", "d"])) =
      .ok (["a", "b", "c"], cacheSet [] (mqKey "q") ["a", "b", "c"], true) ∧
    extractQueries .invalidJson = [] ∧
    ([("a" : String), "b", "c"]).length ≤ 3 := by
  refine ⟨?_, ?_, by decide⟩
  · exact (mq_parse_failure_recovered "q" [] (.queriesList ["a", "b", "c", "d"])).2.1 rfl
  · exact (mq_parse_failure_recovered "q" [] .invalidJson).2.2.1 (Or.inl rfl)

/-- C10: the cached HyDE lookup is idempotent only for non-empty results.
When the generation service returns text that trims to the empty string,
`getHydeCached` stores `""` under the question's key, yet a second
invocation with the identical question invokes the service again, because
`if (cache[key])` is false for the empty string; by contrast a non-empty
cached entry is served without any service call. -/
theorem hyde_empty_result_not_idempotent (question : String)
    (cache : List (String × String)) (t : String)
    (ht : jsTrim t = "")
    (hmiss : strTruthy (cacheGet cache (hydeKey question)) = false)
    (svc2 : Except JsError String) :
    getHydeCached question cache (.ok t) =
      .ok ("", cacheSet cache (hydeKey question) "", true) ∧
    cacheGet (cacheSet cache (hydeKey question) "") (hydeKey question) = some "" ∧
    (∀ t2, getHydeCached question (cacheSet cache (hydeKey question) "") (.ok t2) =
      .ok (jsTrim t2,
        cacheSet (cacheSet cache (hydeKey question) "") (hydeKey question) (jsTrim t2),
        true)) ∧
    (∀ s, s ≠ "" → ∀ c2 : List (String × String),
      cacheGet c2 (hydeKey question) = some s →
      getHydeCached question c2 svc2 = .ok (s, c2, false)) := by
  have hself := cacheGet_cacheSet_self cache (hydeKey question) ""
  refine ⟨?_, hself, ?_, ?_⟩
  · unfold getHydeCached
    rw [hmiss]
    simp [ht]
  · intro t2
    unfold getHydeCached
    rw [hself]
    simp [strTruthy]
  · intro s hs c2 hc2
    unfold getHydeCached
    rw [hc2]
    simp [strTruthy, hs]

/-- Witness for C10 at a concrete input: a whitespace-only service response
against an empty cache; the second invocation calls the service again and a
non-empty cached value is served without a call. -/
theorem hyde_empty_result_not_idempotent_witness :
    getHydeCached "q" [] (.ok " ") = .ok ("", cacheSet [] (hydeKey "q") "", true) ∧
    getHydeCached "q" (cacheSet [] (hydeKey "q") "") (.ok "west") =
      .ok ("west",
        cacheSet (cacheSet [] (hydeKey "q") "") (hydeKey "q") "west", true) := by
  have h := hyde_empty_result_not_idempotent "q" [] " " (by decide) rfl (.ok "x")
  exact ⟨h.1, by simpa using h.2.2.1 "west"⟩

/-- Appending to a fixed string on the left is injective. -/
theorem string_append_left_cancel {p x y : String} (h : p ++ x = p ++ y) : x = y := by
  have hd : p.data ++ x.data = p.data ++ y.data := by
    simpa [String.data_append] using congrArg String.data h
  exact String.ext (List.append_cancel_left hd)

/-- Amended C7: for every fixed model and question, two contexts whose
`hashKey` fingerprints differ produce different answer-cache keys; hence a
run answering against one context never creates or reads the cache entry of
a context with a different fingerprint, and a later run with the new context
must invoke the generation service rather than return the stale answer. -/
theorem answer_cache_key_context_hash (q c1 c2 : String)
    (h : hashKey c1 ≠ hashKey c2) :
    (∀ model, answerKey model q c1 ≠ answerKey model q c2) ∧
    (∀ (cache : List (String × String)) (svc : Except JsError String)
      (a : String) (cache1 : List (String × String)) (called : Bool),
      cacheGet cache (answerKey GEN_MODEL q c2) = none →
      answerWithContextCached q c1 cache svc = .ok (a, cache1, called) →
      cacheGet cache1 (answerKey GEN_MODEL q c2) = none) ∧
    (∀ (cache1 : List (String × String)) (a2 : String),
      cacheGet cache1 (answerKey GEN_MODEL q c2) = none →
      answerWithContextCached q c2 cache1 (.ok a2) =
        .ok (a2, cacheSet cache1 (answerKey GEN_MODEL q c2) a2, true)) := by
  have hkey : ∀ model, answerKey model q c1 ≠ answerKey model q c2 := by
    intro model heq
    exact h (toHex_injective (string_append_left_cancel heq))
  refine ⟨hkey, ?_, ?_⟩
  · intro cache svc a cache1 called h2 hrun
    unfold answerWithContextCached at hrun
    by_cases hhit : strTruthy (cacheGet cache (answerKey GEN_MODEL q c1))
    · rw [if_pos hhit] at hrun
      cases hrun
      exact h2
    · rw [if_neg hhit] at hrun
      cases svc with
      | error e => cases hrun
      | ok out =>
        simp only at hrun
        cases hrun
        rw [cacheGet_cacheSet_ne _ _ _ _ (hkey GEN_MODEL)]
        exact h2
  · intro cache1 a2 hnone
    simp [answerWithContextCached, hnone, strTruthy]

/-- Witness for the amended C7 at concrete contexts with distinct
fingerprints. -/
theorem answer_cache_key_context_hash_witness :
    answerKey GEN_MODEL "q" "a" ≠ answerKey GEN_MODEL "q" "b" :=
  (answer_cache_key_context_hash "q" "a" "b" (by decide)).1 GEN_MODEL

/-- Counterexample to C7 as stated: the contexts "costarring" and "liquid"
differ, yet their 32-bit FNV-1a fingerprints collide, so the two runs share
one answer-cache key, and the run with the new context is served the stale
cached answer of the old context without any service call. -/
theorem answer_cache_key_collision_counterexample :
    ("costarring" : String) ≠ "liquid" ∧
    answerKey GEN_MODEL "q" "costarring" = answerKey GEN_MODEL "q" "liquid" ∧
    answerWithContextCached "q" "liquid"
        (cacheSet [] (answerKey GEN_MODEL "q" "costarring") "stale answer")
        (.ok "fresh answer") =
      .ok ("stale answer",
        cacheSet [] (answerKey GEN_MODEL "q" "costarring") "stale answer", false) := by
  exact ⟨by decide, by decide, rfl⟩

theorem withRetryGo_ok {o : Nat → Except JsError α} {rand : Nat → ℚ} {m attempt fuel : Nat}
    {a : α} (h : o attempt = .ok a) :
    withRetryGo o rand m attempt fuel = (.ok a, []) := by
  rw [withRetryGo, h]

theorem withRetryGo_quota {o : Nat → Except JsError α} {rand : Nat → ℚ}
    {m attempt fuel : Nat} {e : JsError} (h : o attempt = .error e)
    (hq : (classifyOpenAIError e).isQuota = true) :
    withRetryGo o rand m attempt fuel = (.error e, []) := by
  rw [withRetryGo, h]
  simp [hq]

theorem withRetryGo_noRetry {o : Nat → Except JsError α} {rand : Nat → ℚ}
    {m attempt fuel : Nat} {e : JsError} (h : o attempt = .error e)
    (hq : (classifyOpenAIError e).isQuota = false)
    (hcr : ((classifyOpenAIError e).isRateLimit || (classifyOpenAIError e).isTransient) = false) :
    withRetryGo o rand m attempt fuel = (.error e, []) := by
  rw [withRetryGo, h]
  simp [hq, hcr]

theorem withRetryGo_exhausted {o : Nat → Except JsError α} {rand : Nat → ℚ}
    {m attempt fuel : Nat} {e : JsError} (h : o attempt = .error e)
    (hq : (classifyOpenAIError e).isQuota = false)
    (hatt : m ≤ attempt) :
    withRetryGo o rand m attempt fuel = (.error e, []) := by
  rw [withRetryGo, h]
  by_cases hcr : ((classifyOpenAIError e).isRateLimit || (classifyOpenAIError e).isTransient) = true
  · simp [hq, hcr, hatt]
  · have hcr' : ((classifyOpenAIError e).isRateLimit ||
        (classifyOpenAIError e).isTransient) = false := by simpa using hcr
    simp [hq, hcr']

theorem withRetryGo_step {o : Nat → Except JsError α} {rand : Nat → ℚ}
    {m attempt f : Nat} {e : JsError} (h : o attempt = .error e)
    (hq : (classifyOpenAIError e).isQuota = false)
    (hcr : ((classifyOpenAIError e).isRateLimit || (classifyOpenAIError e).isTransient) = true)
    (hatt : attempt < m) :
    withRetryGo o rand m attempt (f + 1) =
      ((withRetryGo o rand m (attempt + 1) f).1,
        (min 8000 (500 * 2 ^ attempt) + Int.floor (rand attempt * 250)) ::
          (withRetryGo o rand m (attempt + 1) f).2) := by
  rw [withRetryGo, h]
  simp [hq, hcr, Nat.not_le.mpr hatt]

theorem withRetryGo_delays (o : Nat → Except JsError α) (rand : Nat → ℚ) (m : Nat) :
    ∀ fuel attempt,
      (withRetryGo o rand m attempt fuel).2.length ≤ fuel ∧
      (withRetryGo o rand m attempt fuel).2 =
        (List.range (withRetryGo o rand m attempt fuel).2.length).map
          (fun i => min 8000 (500 * 2 ^ (attempt + i)) + Int.floor (rand (attempt + i) * 250)) := by
  intro fuel
  induction fuel with
  | zero =>
    intro attempt
    cases h : o attempt with
    | ok a => rw [withRetryGo_ok h]; exact ⟨Nat.le_refl 0, rfl⟩
    | error e =>
      by_cases hq : (classifyOpenAIError e).isQuota = true
      · rw [withRetryGo_quota h hq]; exact ⟨Nat.le_refl 0, rfl⟩
      · by_cases hcr : ((classifyOpenAIError e).isRateLimit ||
            (classifyOpenAIError e).isTransient) = true
        · by_cases hatt : m ≤ attempt
          · rw [withRetryGo_exhausted h (by simpa using hq) hatt]
            exact ⟨Nat.le_refl 0, rfl⟩
          · rw [withRetryGo, h]
            simp [show (classifyOpenAIError e).isQuota = false by simpa using hq,
              hcr, hatt]
        · rw [withRetryGo_noRetry h (by simpa using hq) (by simpa using hcr)]
          exact ⟨Nat.le_refl 0, rfl⟩
  | succ f ih =>
    intro attempt
    cases h : o attempt with
    | ok a => rw [withRetryGo_ok h]; exact ⟨Nat.zero_le _, rfl⟩
    | error e =>
      by_cases hq : (classifyOpenAIError e).isQuota = true
      · rw [withRetryGo_quota h hq]; exact ⟨Nat.zero_le _, rfl⟩
      · by_cases hcr : ((classifyOpenAIError e).isRateLimit ||
            (classifyOpenAIError e).isTransient) = true
        · by_cases hatt : m ≤ attempt
          · rw [withRetryGo_exhausted h (by simpa using hq) hatt]
            exact ⟨Nat.zero_le _, rfl⟩
          · rw [withRetryGo_step h (by simpa using hq) hcr (Nat.not_le.mp hatt)]
            obtain ⟨ihl, ihe⟩ := ih (attempt + 1)
            refine ⟨by simpa using Nat.succ_le_succ ihl, ?_⟩
            simp only [List.length_cons]
            rw [List.range_succ_eq_map, List.map_cons, List.map_map]
            refine List.cons_eq_cons.mpr ⟨by simp, ?_⟩
            conv_lhs => rw [ihe]
            refine List.map_congr_left ?_
            intro i hi
            simp only [Function.comp, Nat.succ_eq_add_one]
            have hsucc : attempt + (i + 1) = attempt + 1 + i := by omega
            rw [hsucc]
        · rw [withRetryGo_noRetry h (by simpa using hq) (by simpa using hcr)]
          exact ⟨Nat.zero_le _, rfl⟩

/-- C4: `withRetry` never retries a quota-classified error (zero backoff
delays, the error propagates at once), never retries an unclassified error,
performs at most 4 retries (hence at most 5 attempts), each `i`-th backoff
delay equals `min(8000, 500·2^i)` plus a jitter `⌊Math.random()·250⌋` that is
non-negative and strictly below 250, and when five retryable failures occur
in a row it propagates the fifth error unchanged after exactly 4 retries. -/
theorem retry_policy {α : Type} (o : Nat → Except JsError α) (rand : Nat → ℚ)
    (hrand : ∀ i, 0 ≤ rand i ∧ rand i < 1) :
    (∀ e, o 0 = .error e → (classifyOpenAIError e).isQuota = true →
      withRetry o rand 4 = (.error e, [])) ∧
    (∀ e, o 0 = .error e → (classifyOpenAIError e).isQuota = false →
      (classifyOpenAIError e).isRateLimit = false →
      (classifyOpenAIError e).isTransient = false →
      withRetry o rand 4 = (.error e, [])) ∧
    (withRetry o rand 4).2.length ≤ 4 ∧
    (∀ i, i < (withRetry o rand 4).2.length →
      (withRetry o rand 4).2.getD i 0 =
        min 8000 (500 * 2 ^ i) + Int.floor (rand i * 250) ∧
      min 8000 (500 * 2 ^ i) ≤ (withRetry o rand 4).2.getD i 0 ∧
      (withRetry o rand 4).2.getD i 0 < min 8000 (500 * 2 ^ i) + 250) ∧
    (∀ es : Nat → JsError,
      (∀ i, i ≤ 4 → o i = .error (es i) ∧
        (classifyOpenAIError (es i)).isQuota = false ∧
        ((classifyOpenAIError (es i)).isRateLimit ||
          (classifyOpenAIError (es i)).isTransient) = true) →
      (withRetry o rand 4).1 = .error (es 4) ∧ (withRetry o rand 4).2.length = 4) := by
  obtain ⟨hlen, hshape⟩ := withRetryGo_delays o rand 4 4 0
  have hjit : ∀ i : Nat, (0 : ℤ) ≤ Int.floor (rand i * 250) ∧
      Int.floor (rand i * 250) < 250 := by
    intro i
    constructor
    · refine Int.le_floor.mpr ?_
      push_cast
      exact mul_nonneg (hrand i).1 (by norm_num)
    · refine Int.floor_lt.mpr ?_
      have : rand i * 250 < 1 * 250 :=
        mul_lt_mul_of_pos_right (hrand i).2 (by norm_num)
      simpa using this
  refine ⟨?_, ?_, hlen, ?_, ?_⟩
  · intro e he hq
    exact withRetryGo_quota he hq
  · intro e he hq hrl htr
    exact withRetryGo_noRetry he hq (by simp [hrl, htr])
  · intro i hi
    have hget : (withRetry o rand 4).2.getD i 0 =
        min 8000 (500 * 2 ^ i) + Int.floor (rand i * 250) := by
      simp only [withRetry]
      conv_lhs => rw [hshape]
      rw [List.getD_eq_getElem?_getD, List.getElem?_map,
        List.getElem?_range (by simpa [withRetry] using hi)]
      simp
    refine ⟨hget, ?_, ?_⟩
    · rw [hget]
      exact le_add_of_nonneg_right (hjit i).1
    · rw [hget]
      exact add_lt_add_left (hjit i).2 _
  · intro es hes
    have h0 := hes 0 (by norm_num)
    have h1 := hes 1 (by norm_num)
    have h2 := hes 2 (by norm_num)
    have h3 := hes 3 (by norm_num)
    have h4 := hes 4 (by norm_num)
    have hR : withRetry o rand 4 =
        (.error (es 4),
          [min 8000 (500 * 2 ^ 0) + Int.floor (rand 0 * 250),
           min 8000 (500 * 2 ^ 1) + Int.floor (rand 1 * 250),
           min 8000 (500 * 2 ^ 2) + Int.floor (rand 2 * 250),
           min 8000 (500 * 2 ^ 3) + Int.floor (rand 3 * 250)]) := by
      unfold withRetry
      rw [withRetryGo_step h0.1 h0.2.1 h0.2.2 (by norm_num),
        withRetryGo_step h1.1 h1.2.1 h1.2.2 (by norm_num),
        withRetryGo_step h2.1 h2.2.1 h2.2.2 (by norm_num),
        withRetryGo_step h3.1 h3.2.1 h3.2.2 (by norm_num),
        withRetryGo_exhausted h4.1 h4.2.1 (by norm_num)]
    rw [hR]
    exact ⟨rfl, rfl⟩

/-- Witness for C4 at concrete inputs: a quota error propagates at once with
no retries, and five consecutive rate-limit errors exhaust the retry budget
and propagate the final error with exactly 4 backoff delays. -/
theorem retry_policy_witness :
    withRetry (α := Unit)
      (fun _ => .error ⟨some 429, some "insufficient_quota", some "quota hit", none⟩)
      (fun _ => 0) 4 =
      (.error ⟨some 429, some "insufficient_quota", some "quota hit", none⟩, []) ∧
    (withRetry (α := Unit)
      (fun _ => .error ⟨some 429, some "rate_limit_exceeded", none, none⟩)
      (fun _ => 0) 4).1 =
      .error ⟨some 429, some "rate_limit_exceeded", none, none⟩ ∧
    (withRetry (α := Unit)
      (fun _ => .error ⟨some 429, some "rate_limit_exceeded", none, none⟩)
      (fun _ => 0) 4).2.length = 4 := by
  have hrand : ∀ i : Nat, (0 : ℚ) ≤ (fun _ => (0 : ℚ)) i ∧ (fun _ => (0 : ℚ)) i < 1 := by
    intro i
    constructor <;> norm_num
  refine ⟨?_, ?_⟩
  · exact (retry_policy (α := Unit) (fun _ => .error ⟨some 429,
      some "insufficient_quota", some "quota hit", none⟩) (fun _ => 0) hrand).1
      _ rfl (by decide)
  · have h := (retry_policy (α := Unit) (fun _ => .error ⟨some 429,
      some "rate_limit_exceeded", none, none⟩) (fun _ => 0) hrand).2.2.2.2
      (fun _ => ⟨some 429, some "rate_limit_exceeded", none, none⟩)
      (by
        intro i _
        refine ⟨rfl, ?_, ?_⟩
        · show (classifyOpenAIError
            ⟨some 429, some "rate_limit_exceeded", none, none⟩).isQuota = false
          decide
        · show ((classifyOpenAIError
              ⟨some 429, some "rate_limit_exceeded", none, none⟩).isRateLimit ||
            (classifyOpenAIError
              ⟨some 429, some "rate_limit_exceeded", none, none⟩).isTransient) = true
          decide)
    exact h

theorem if_lt_eq_max (m s : ℚ) : (if m < s then s else m) = max m s := by
  by_cases h : m < s
  · simp [h, max_eq_right h.le]
  · simp [h, max_eq_left (not_lt.mp h)]

theorem foldl_max_pull (c : ℚ) : ∀ (t : List ℚ) (x : ℚ),
    t.foldl max (max c x) = max c (t.foldl max x) := by
  intro t
  induction t with
  | nil => intro x; rfl
  | cons y t ih =>
    intro x
    simp only [List.foldl_cons]
    rw [max_assoc, ih]

theorem maxSimToPicked_foldl (a : List ℚ) : ∀ (pe : List (List ℚ)) (m : ℚ),
    pe.foldl (fun m b => let sim := listDot a b; if m < sim then sim else m) m =
      (pe.map (fun b => listDot a b)).foldl max m := by
  intro pe
  induction pe with
  | nil => intro m; rfl
  | cons b bs ih =>
    intro m
    simp only [List.foldl_cons, List.map_cons]
    rw [← ih, if_lt_eq_max]

/-- The similarity loop of `pickDiverse` computes the larger of `0` and the
largest dot product with a picked embedding: starting the fold at `0` clamps
the result below at `0` whenever every similarity is negative. -/
theorem maxSimToPicked_eq (a : List ℚ) : ∀ pe : List (List ℚ),
    maxSimToPicked pe a = max 0 (largestSim pe a) := by
  intro pe
  cases pe with
  | nil => simp [maxSimToPicked, largestSim]
  | cons b bs =>
    unfold maxSimToPicked
    rw [maxSimToPicked_foldl a, List.map_cons, List.foldl_cons]
    simp only [largestSim]
    exact foldl_max_pull 0 _ (listDot a b)

theorem pickDiverseGo_eq_spec (k : Nat) (lam mk : ℚ) :
    ∀ (hits picked : List Hit),
      pickDiverseGo k lam mk hits picked (picked.map (fun p => p.item.embeddingUnit)) =
        pickDiverseSpecGo k lam mk hits picked := by
  intro hits
  induction hits with
  | nil => intro picked; rfl
  | cons h hs ih =>
    intro picked
    rw [pickDiverseGo, pickDiverseSpecGo]
    by_cases hk : k ≤ picked.length
    · simp [hk]
    · simp only [if_neg hk]
      rw [maxSimToPicked_eq]
      by_cases hacc : picked.length = 0 ∨
          mk < lam * h.score - (1 - lam) *
            (max 0 (largestSim (picked.map (fun p => p.item.embeddingUnit))
              h.item.embeddingUnit))
      · rw [if_pos hacc, if_pos hacc]
        have hmap : List.map (fun p => p.item.embeddingUnit) picked ++
            [h.item.embeddingUnit] =
            (picked ++ [h]).map (fun p => p.item.embeddingUnit) := by simp
        rw [hmap]
        exact ih (picked ++ [h])
      · rw [if_neg hacc, if_neg hacc]
        exact ih picked

/-- Amended C2: `pickDiverse` scores each candidate with
`mmrScore = lambda * score - (1 - lambda) * maxSim` where `maxSim` is the
larger of `0` and the largest cosine similarity between the candidate's
embedding and any already-picked embedding (in particular `0` when nothing
is picked yet), accepts exactly when the picked list is empty or
`mmrScore > minKeep`, stops once `k` picks are made or the candidates are
exhausted, and never reconsiders a rejected candidate: it coincides with the
single-pass selector `pickDiverseSpec` transcribing that description. -/
theorem pickDiverse_eq_spec (hits : List Hit) (k : Nat) (lam mk : ℚ) :
    pickDiverse hits k lam mk = pickDiverseSpec hits k lam mk :=
  pickDiverseGo_eq_spec k lam mk hits []

/-- Counterexample to C2 as stated: with a picked embedding whose cosine
similarity to the candidate is negative, the code clamps `maxSim` at `0`
while the claim's `maxSim` is the (negative) largest similarity, so the two
selectors disagree on this two-hit input: the code rejects the second hit,
the claimed rule accepts it. -/
theorem pickDiverse_claim_counterexample :
    pickDiverse
        [⟨⟨"a", "s", 0, "c", [1]⟩, 1⟩, ⟨⟨"b", "s", 1, "c", [-1]⟩, 1/10⟩]
        2 (4/5) (1/10) ≠
      pickDiverseClaim
        [⟨⟨"a", "s", 0, "c", [1]⟩, 1⟩, ⟨⟨"b", "s", 1, "c", [-1]⟩, 1/10⟩]
        2 (4/5) (1/10) := by
  have hcode : pickDiverse
      [⟨⟨"a", "s", 0, "c", [1]⟩, 1⟩, ⟨⟨"b", "s", 1, "c", [-1]⟩, 1/10⟩]
      2 (4/5) (1/10) = [⟨⟨"a", "s", 0, "c", [1]⟩, 1⟩] := by
    norm_num [pickDiverse, pickDiverseGo, maxSimToPicked, listDot]
  have hclaim : pickDiverseClaim
      [⟨⟨"a", "s", 0, "c", [1]⟩, 1⟩, ⟨⟨"b", "s", 1, "c", [-1]⟩, 1/10⟩]
      2 (4/5) (1/10) =
      [⟨⟨"a", "s", 0, "c", [1]⟩, 1⟩, ⟨⟨"b", "s", 1, "c", [-1]⟩, 1/10⟩] := by
    norm_num [pickDiverseClaim, pickDiverseClaimGo, largestSim, listDot]
  rw [hcode, hclaim]
  decide

theorem pickDiverseGo_length (k : Nat) (lam mk : ℚ) :
    ∀ (hits picked : List Hit) (pe : List (List ℚ)), picked.length ≤ k →
      (pickDiverseGo k lam mk hits picked pe).length ≤ k := by
  intro hits
  induction hits with
  | nil => intro picked pe hp; exact hp
  | cons h hs ih =>
    intro picked pe hp
    rw [pickDiverseGo]
    by_cases hk : k ≤ picked.length
    · rw [if_pos hk]; exact hp
    · rw [if_neg hk]
      by_cases hacc : picked.length = 0 ∨
          mk < lam * h.score - (1 - lam) * maxSimToPicked pe h.item.embeddingUnit
      · rw [if_pos hacc]
        exact ih _ _ (by simp; omega)
      · rw [if_neg hacc]
        exact ih _ _ hp

theorem pickDiverseGo_decomp (k : Nat) (lam mk : ℚ) :
    ∀ (hits picked : List Hit) (pe : List (List ℚ)),
      ∃ s, s.Sublist hits ∧ pickDiverseGo k lam mk hits picked pe = picked ++ s := by
  intro hits
  induction hits with
  | nil => intro picked pe; exact ⟨[], List.Sublist.refl [], by simp [pickDiverseGo]⟩
  | cons h hs ih =>
    intro picked pe
    rw [pickDiverseGo]
    by_cases hk : k ≤ picked.length
    · exact ⟨[], List.nil_sublist _, by simp [hk]⟩
    · rw [if_neg hk]
      by_cases hacc : picked.length = 0 ∨
          mk < lam * h.score - (1 - lam) * maxSimToPicked pe h.item.embeddingUnit
      · obtain ⟨s, hsub, heq⟩ := ih (picked ++ [h]) (pe ++ [h.item.embeddingUnit])
        exact ⟨h :: s, hsub.cons₂ h, by rw [if_pos hacc, heq]; simp⟩
      · obtain ⟨s, hsub, heq⟩ := ih picked pe
        exact ⟨s, hsub.cons h, by rw [if_neg hacc, heq]⟩

/-- Amended C3: the output of `pickDiverse` has length at most `k`; for a
non-empty input and `k ≥ 1` the first input hit is always selected (it is
the head of the output); and whenever the input hits carry pairwise distinct
item ids — as the merged hits produced by `searchMulti` do — the output
contains no repeated item id. -/
theorem pickDiverse_bounds (hits : List Hit) (k : Nat) (lam mk : ℚ) :
    (pickDiverse hits k lam mk).length ≤ k ∧
    (∀ h rest, hits = h :: rest → 1 ≤ k →
      (pickDiverse hits k lam mk).head? = some h) ∧
    ((idsOf hits).Nodup → (idsOf (pickDiverse hits k lam mk)).Nodup) := by
  refine ⟨pickDiverseGo_length k lam mk hits [] [] (by simp), ?_, ?_⟩
  · rintro h rest rfl hk
    unfold pickDiverse
    rw [pickDiverseGo]
    rw [if_neg (by simp; omega), if_pos (by simp)]
    obtain ⟨s, -, heq⟩ := pickDiverseGo_decomp k lam mk rest [h] [h.item.embeddingUnit]
    simp only [List.nil_append]
    rw [heq]
    rfl
  · intro hnodup
    obtain ⟨s, hsub, heq⟩ := pickDiverseGo_decomp k lam mk hits [] []
    unfold pickDiverse
    rw [heq, List.nil_append]
    exact List.Nodup.sublist
      (by simpa [idsOf] using hsub.map (fun h => h.item.id)) hnodup

/-- Witness for the amended C3 at a concrete input: a single hit with `k = 6`
is selected first, the output length is at most 6, and the ids stay
duplicate-free. -/
theorem pickDiverse_bounds_witness :
    (pickDiverse [⟨⟨"a", "s", 0, "c", [1]⟩, 1⟩] 6 (4/5) (1/10)).length ≤ 6 ∧
    (pickDiverse [⟨⟨"a", "s", 0, "c", [1]⟩, 1⟩] 6 (4/5) (1/10)).head? =
      some ⟨⟨"a", "s", 0, "c", [1]⟩, 1⟩ ∧
    (idsOf (pickDiverse [⟨⟨"a", "s", 0, "c", [1]⟩, 1⟩] 6 (4/5) (1/10))).Nodup := by
  obtain ⟨h1, h2, h3⟩ := pickDiverse_bounds [⟨⟨"a", "s", 0, "c", [1]⟩, 1⟩] 6 (4/5) (1/10)
  exact ⟨h1, h2 _ _ rfl (by norm_num), h3 (by simp [idsOf])⟩

/-- Counterexample to C3 as stated: `pickDiverse` never inspects item ids, so
an input list containing the same hit twice (same id) yields an output with
a repeated item id — the second copy scores
`0.8·1 − 0.2·1 = 0.6 > 0.1` and is accepted. -/
theorem pickDiverse_duplicate_id_counterexample :
    ¬ (idsOf (pickDiverse
        [⟨⟨"a", "s", 0, "c", [1]⟩, 1⟩, ⟨⟨"a", "s", 0, "c", [1]⟩, 1⟩]
        6 (4/5) (1/10))).Nodup := by
  have hout : pickDiverse
      [⟨⟨"a", "s", 0, "c", [1]⟩, 1⟩, ⟨⟨"a", "s", 0, "c", [1]⟩, 1⟩]
      6 (4/5) (1/10) =
      [⟨⟨"a", "s", 0, "c", [1]⟩, 1⟩, ⟨⟨"a", "s", 0, "c", [1]⟩, 1⟩] := by
    norm_num [pickDiverse, pickDiverseGo, maxSimToPicked, listDot]
  rw [hout]
  decide

/-- C5: when an augmentation call (multi-query rewrite or HyDE) fails with a
quota-classified error, `main` swallows the failure, uses empty results for
the augmentation strategies, proceeds to retrieval and answering with the
original question as the sole query variant, and exits with status 0 once
answering succeeds: a quota failure at the augmentation stage alone never
terminates the process. -/
theorem augmentation_quota_degradation (question : String) (hq : question ≠ "")
    (enableMQ enableHyde : Bool)
    (mq : Except JsError (List String)) (hy : Except JsError String)
    (e : JsError) (he : (classifyOpenAIError e).isQuota = true)
    (hfail : (enableMQ = true ∧ mq = .error e) ∨
      (enableHyde = true ∧ (enableMQ = true → ∃ rs, mq = .ok rs) ∧ hy = .error e))
    (embedSvc : List String → Except JsError (List (List ℚ)))
    (items : List Item) (answerCache : List (String × String))
    (answerSvc : Except JsError String)
    (embeds : List (List ℚ)) (hemb : embedSvc [question] = .ok embeds)
    (ans : String) (c1 : List (String × String)) (called : Bool)
    (hans : answerWithContextCached question
        (buildContextBlock (pickDiverse (searchMulti items embeds 8 25) 6 (4/5) (1/10)))
        answerCache answerSvc = .ok (ans, c1, called)) :
    runMain question enableMQ enableHyde mq hy embedSvc items answerCache answerSvc =
      ⟨0, [question], some ans⟩ := by
  have haug : augmentStage enableMQ enableHyde mq hy = .ok ([], "") := by
    rcases hfail with ⟨hmq, rfl⟩ | ⟨hhy, hmqok, rfl⟩
    · unfold augmentStage
      rw [hmq]
      simp [he]
    · unfold augmentStage
      rw [hhy]
      cases henable : enableMQ with
      | false => simp [he]
      | true =>
        obtain ⟨rs, hrs⟩ := hmqok henable
        rw [hrs]
        simp [he]
  have hvar : variantTexts question [] "" = [question] := by
    simp [variantTexts, hq]
  unfold runMain
  rw [if_neg hq, haug]
  simp only [hvar, hemb, hans]

/-- Witness for C5 at a concrete input: the multi-query call fails with an
insufficient-quota 429; the run still answers from the sole variant
`["q"]` and reports exit code 0. -/
theorem augmentation_quota_degradation_witness :
    runMain "q" true true
      (.error ⟨some 429, some "insufficient_quota", none, none⟩) (.ok "")
      (fun _ => .ok [[1]]) [⟨"a", "s", 0, "c", [1]⟩] [] (.ok "ans") =
      ⟨0, ["q"], some "ans"⟩ := by
  exact augmentation_quota_degradation "q" (by decide) true true
    (.error ⟨some 429, some "insufficient_quota", none, none⟩) (.ok "")
    ⟨some 429, some "insufficient_quota", none, none⟩ (by decide)
    (Or.inl ⟨rfl, rfl⟩)
    (fun _ => .ok [[1]]) [⟨"a", "s", 0, "c", [1]⟩] [] (.ok "ans")
    [[1]] rfl "ans" _ _ rfl

theorem idxOfStr_lt_length {a : String} : ∀ {l : List String}, a ∈ l →
    idxOfStr a l < l.length := by
  intro l
  induction l with
  | nil => intro h; cases h
  | cons x xs ih =>
    intro h
    by_cases hx : x = a
    · simp [idxOfStr, hx]
    · rcases List.mem_cons.mp h with rfl | h
      · exact absurd rfl hx
      · simpa [idxOfStr, hx] using ih h

theorem getElem?_idxOfStr {a : String} : ∀ {l : List String}, a ∈ l →
    l[idxOfStr a l]? = some a := by
  intro l
  induction l with
  | nil => intro h; cases h
  | cons x xs ih =>
    intro h
    by_cases hx : x = a
    · simp [idxOfStr, hx]
    · rcases List.mem_cons.mp h with rfl | h
      · exact absurd rfl hx
      · simpa [idxOfStr, hx] using ih h

theorem embedStore_absent : ∀ (ms : List String) (vs : List (List ℚ))
    (cache : List (String × List ℚ)) (k : String),
    (∀ m ∈ ms, embKey m ≠ k) →
    cacheGet (embedStore ms vs cache) k = cacheGet cache k := by
  intro ms
  induction ms with
  | nil => intro vs cache k _; rfl
  | cons m ms ih =>
    intro vs cache k hk
    cases vs with
    | nil => rfl
    | cons v vs =>
      show cacheGet (embedStore ms vs (cacheSet cache (embKey m) v)) k = cacheGet cache k
      rw [ih vs _ k (fun m' hm' => hk m' (List.mem_cons_of_mem m hm')),
        cacheGet_cacheSet_ne _ _ _ _ (hk m (List.mem_cons_self m ms))]

theorem embedStore_found : ∀ (ms : List String) (vs : List (List ℚ))
    (cache : List (String × List ℚ)) (t : String),
    t ∈ ms → vs.length = ms.length → (ms.map embKey).Nodup →
    cacheGet (embedStore ms vs cache) (embKey t) = vs[idxOfStr t ms]? := by
  intro ms
  induction ms with
  | nil => intro vs cache t ht; cases ht
  | cons m ms ih =>
    intro vs cache t ht hlen hnd
    cases vs with
    | nil => simp at hlen
    | cons v vs =>
      rw [List.map_cons, List.nodup_cons] at hnd
      by_cases hm : m = t
      · subst hm
        show cacheGet (embedStore ms vs (cacheSet cache (embKey m) v)) (embKey m) = _
        rw [embedStore_absent ms vs _ (embKey m)
          (fun m' hm' heq => hnd.1 (heq ▸ List.mem_map_of_mem embKey hm')),
          cacheGet_cacheSet_self]
        simp [idxOfStr]
      · have ht' : t ∈ ms := by
          rcases List.mem_cons.mp ht with rfl | h
          · exact absurd rfl hm
          · exact h
        show cacheGet (embedStore ms vs (cacheSet cache (embKey m) v)) (embKey t) = _
        rw [ih vs _ t ht' (by simpa using hlen) hnd.2]
        simp [idxOfStr, hm]

/-- Amended C6: `embedTextsCached` partitions the batch into cache hits and
misses, issues at most one external embedding call covering exactly the
misses (and none when every text is a hit), and — provided the batch has no
duplicate texts, no two distinct texts of the batch share an `embKey`
fingerprint, and the service reply covers the misses — returns the vectors
in the original request order: each hit position carries its previously
cached vector and each miss position the service vector at that miss's
position.  In particular, a second invocation with an identical
`(model, text)` pair issues no further call and returns a vector identical
to the first. -/
theorem embed_cache_partition (texts : List String)
    (cache : List (String × List ℚ))
    (svc : List String → Except JsError (List (List ℚ))) :
    ((∀ t ∈ texts, (cacheGet cache (embKey t)).isSome) →
      embedTextsCached texts cache svc =
        .ok (texts.map (fun t => cacheGet cache (embKey t)), cache, none)) ∧
    (∀ vs, texts.filter (fun t => (cacheGet cache (embKey t)).isNone) ≠ [] →
      svc (texts.filter (fun t => (cacheGet cache (embKey t)).isNone)) = .ok vs →
      embedTextsCached texts cache svc =
        .ok (texts.map (fun t => cacheGet
            (embedStore (texts.filter (fun t => (cacheGet cache (embKey t)).isNone))
              vs cache) (embKey t)),
          embedStore (texts.filter (fun t => (cacheGet cache (embKey t)).isNone))
            vs cache,
          some (texts.filter (fun t => (cacheGet cache (embKey t)).isNone)))) ∧
    (∀ vs, (∀ t1 ∈ texts, ∀ t2 ∈ texts, embKey t1 = embKey t2 → t1 = t2) →
      texts.Nodup →
      vs.length = (texts.filter (fun t => (cacheGet cache (embKey t)).isNone)).length →
      ∀ t ∈ texts,
        cacheGet (embedStore
            (texts.filter (fun t => (cacheGet cache (embKey t)).isNone)) vs cache)
            (embKey t) =
          match cacheGet cache (embKey t) with
          | some v => some v
          | none =>
            vs[idxOfStr t (texts.filter (fun t => (cacheGet cache (embKey t)).isNone))]?) ∧
    (∀ (t : String) (v : List ℚ) (c : List (String × List ℚ))
        (svc1 svc2 : List String → Except JsError (List (List ℚ))),
      cacheGet c (embKey t) = none → svc1 [t] = .ok [v] →
      embedTextsCached [t] c svc1 =
        .ok ([some v], cacheSet c (embKey t) v, some [t]) ∧
      embedTextsCached [t] (cacheSet c (embKey t) v) svc2 =
        .ok ([some v], cacheSet c (embKey t) v, none)) := by
  refine ⟨?_, ?_, ?_, ?_⟩
  · intro hall
    have hm : texts.filter (fun t => (cacheGet cache (embKey t)).isNone) = [] := by
      rw [List.filter_eq_nil_iff]
      intro t ht
      simp [Option.isNone_iff_eq_none]
      exact Option.isSome_iff_ne_none.mp (hall t ht)
    simp [embedTextsCached, hm]
  · intro vs hne hsvc
    simp only [embedTextsCached]
    rw [if_neg (by simpa using hne), hsvc]
    simp [List.map_map, Function.comp]
  · intro vs hinj hnodup hlen t ht
    cases hcase : cacheGet cache (embKey t) with
    | some v =>
      rw [embedStore_absent _ _ _ _ ?_]
      · exact hcase
      · intro m hm heq
        have hmnone := (List.mem_filter.mp hm).2
        rw [heq, hcase] at hmnone
        simp at hmnone
    | none =>
      have htm : t ∈ texts.filter (fun t => (cacheGet cache (embKey t)).isNone) :=
        List.mem_filter.mpr ⟨ht, by simp [hcase]⟩
      rw [embedStore_found _ _ _ _ htm hlen ?_]
      refine List.Nodup.map_on ?_ (List.Nodup.filter _ hnodup)
      intro x hx y hy hxy
      exact hinj x (List.filter_subset' texts hx) y (List.filter_subset' texts hy) hxy
  · intro t v c svc1 svc2 hnone hcall
    have hfil : [t].filter (fun t => (cacheGet c (embKey t)).isNone) = [t] := by
      simp [hnone]
    have hone : embedTextsCached [t] c svc1 =
        .ok ([some v], cacheSet c (embKey t) v, some [t]) := by
      simp only [embedTextsCached, hfil]
      rw [if_neg (by simp), hcall]
      show Except.ok ([cacheGet (embedStore [t] [v] c) (embKey t)],
        embedStore [t] [v] c, some [t]) = _
      have hst : embedStore [t] [v] c = cacheSet c (embKey t) v := rfl
      rw [hst, cacheGet_cacheSet_self]
    refine ⟨hone, ?_⟩
    have hsome : cacheGet (cacheSet c (embKey t) v) (embKey t) = some v :=
      cacheGet_cacheSet_self c (embKey t) v
    have hfil2 : [t].filter
        (fun s => (cacheGet (cacheSet c (embKey t) v) (embKey s)).isNone) = [] := by
      simp [hsome]
    simp [embedTextsCached, hfil2, hsome]

/-- Witness for C6 at a concrete input: one uncached text produces one call
covering exactly it, and the repeat invocation is served from the cache with
the identical vector and no call. -/
theorem embed_cache_partition_witness :
    embedTextsCached ["hello"] [] (fun _ => .ok [[1]]) =
      .ok ([some [1]], cacheSet [] (embKey "hello") [1], some ["hello"]) ∧
    embedTextsCached ["hello"] (cacheSet [] (embKey "hello") [1])
        (fun _ => .ok [[2]]) =
      .ok ([some [1]], cacheSet [] (embKey "hello") [1], none) :=
  (embed_cache_partition ["hello"] [] (fun _ => .ok [[1]])).2.2.2
    "hello" [1] [] (fun _ => .ok [[1]]) (fun _ => .ok [[2]]) rfl rfl

/-- Counterexample to C6 as stated: the claim's order guarantee is
universally quantified over batches, but `embKey` is built from the 32-bit
FNV-1a `hashKey`, and the distinct texts "costarring" and "liquid" share a
fingerprint.  On the batch `["costarring", "liquid"]` against an empty cache
both texts are misses, the store-back writes both service vectors under the
one shared key (last write wins), and the read-back returns the second
text's vector `[2]` at the first text's position instead of its own vector
`[1]`: the vectors are not returned in the original request order. -/
theorem embed_cache_collision_counterexample :
    ("costarring" : String) ≠ "liquid" ∧
    embKey "costarring" = embKey "liquid" ∧
    ([(1 : ℚ)] : List ℚ) ≠ [2] ∧
    embedTextsCached ["costarring", "liquid"] [] (fun _ => .ok [[1], [2]]) =
      .ok ([some [2], some [2]], [(embKey "costarring", [2])],
        some ["costarring", "liquid"]) := by
  exact ⟨by decide, by decide, by decide, rfl⟩

theorem pair_getElem_sublist : ∀ (l : List α) (i j : Nat) (hi : i < l.length)
    (hj : j < l.length), i < j → ([l[i], l[j]]).Sublist l := by
  intro l
  induction l with
  | nil => intro i j hi _ _; cases hi
  | cons x xs ih =>
    intro i j hi hj hij
    cases i with
    | zero =>
      cases j with
      | zero => cases hij
      | succ j =>
        simp only [List.getElem_cons_zero, List.getElem_cons_succ]
        exact (List.singleton_sublist.mpr (List.getElem_mem _)).cons₂ x
    | succ i =>
      cases j with
      | zero => cases hij
      | succ j =>
        simp only [List.getElem_cons_succ]
        exact (ih i j (by simpa using hi) (by simpa using hj) (by omega)).cons x

/-- C8: `search` scores every item by the dot product of the query vector and
the item's unit embedding, returns the first `topK` of the stably sorted
scored list, the returned scores are non-increasing, and ties keep the
original insertion order: two items at positions `i < j` with equal scores
appear in that relative order in the sorted candidate list whose prefix is
returned. -/
theorem search_ordering (items : List Item) (q : List ℚ) (topK : Nat) :
    search items q topK = (stableSort hitLe (scoreHits items q)).take topK ∧
    (∀ h ∈ search items q topK, ∃ it ∈ items,
      h.item = it ∧ h.score = cosineSimUnitVectors q it.embeddingUnit) ∧
    (search items q topK).Pairwise (fun a b => b.score ≤ a.score) ∧
    (∀ (i j : Nat) (hi : i < items.length) (hj : j < items.length), i < j →
      cosineSimUnitVectors q items[i].embeddingUnit =
        cosineSimUnitVectors q items[j].embeddingUnit →
      ([(⟨items[i], cosineSimUnitVectors q items[i].embeddingUnit⟩ : Hit),
        ⟨items[j], cosineSimUnitVectors q items[j].embeddingUnit⟩]).Sublist
        (stableSort hitLe (scoreHits items q))) := by
  refine ⟨rfl, ?_, ?_, ?_⟩
  · intro h hh
    have h1 : h ∈ stableSort hitLe (scoreHits items q) :=
      List.mem_of_mem_take hh
    have h2 : h ∈ scoreHits items q := (mem_stableSort _ _ _).mp h1
    obtain ⟨it, hit, rfl⟩ := List.mem_map.mp h2
    exact ⟨it, hit, rfl, rfl⟩
  · have hs : (stableSort hitLe (scoreHits items q)).Pairwise
        (fun a b => hitLe a b = true) :=
      sorted_stableSort hitLe hitLe_total hitLe_trans _
    have ht : (search items q topK).Pairwise (fun a b => hitLe a b = true) :=
      hs.sublist (List.take_sublist _ _)
    exact ht.imp (fun hab => by simpa [hitLe] using hab)
  · intro i j hi hj hij heq
    apply sublist_stableSort hitLe
    · refine List.pairwise_cons.mpr ⟨?_, by simp⟩
      intro b hb
      rcases List.mem_cons.mp hb with rfl | hb
      · simp [hitLe, heq]
      · cases hb
    · have hsl := pair_getElem_sublist (scoreHits items q) i j
        (by simpa [scoreHits] using hi) (by simpa [scoreHits] using hj) hij
      simpa [scoreHits] using hsl

/-- Witness for C8 at a concrete store with a score tie: the two equal-score
items keep their insertion order in the sorted candidates, and the returned
hits are in non-increasing score order. -/
theorem search_ordering_witness :
    ([(⟨⟨"a", "s", 0, "c", [1]⟩, cosineSimUnitVectors [1] [1]⟩ : Hit),
      ⟨⟨"b", "s", 1, "c", [1]⟩, cosineSimUnitVectors [1] [1]⟩]).Sublist
      (stableSort hitLe
        (scoreHits [⟨"a", "s", 0, "c", [1]⟩, ⟨"b", "s", 1, "c", [1]⟩] [1])) ∧
    (search [⟨"a", "s", 0, "c", [1]⟩, ⟨"b", "s", 1, "c", [1]⟩] [1] 8).Pairwise
      (fun a b => b.score ≤ a.score) := by
  refine ⟨?_, (search_ordering [⟨"a", "s", 0, "c", [1]⟩,
    ⟨"b", "s", 1, "c", [1]⟩] [1] 8).2.2.1⟩
  exact (search_ordering [⟨"a", "s", 0, "c", [1]⟩, ⟨"b", "s", 1, "c", [1]⟩]
    [1] 8).2.2.2 0 1 (by norm_num) (by norm_num) (by norm_num) rfl

/-- A hit carries the maximal score among the processed hits sharing its id. -/
def ScoreUB (processed : List Hit) (h : Hit) : Prop :=
  ∀ g ∈ processed, g.item.id = h.item.id → g.score ≤ h.score

/-- Invariant of the merge map of `searchMulti` over the processed per-query
hits: ids are unique, every stored hit is a processed hit carrying the best
score seen for its id, and every processed id is represented. -/
def MergeInv (processed best : List Hit) : Prop :=
  (idsOf best).Nodup ∧
  (∀ h ∈ best, h ∈ processed ∧ ScoreUB processed h) ∧
  (∀ g ∈ processed, ∃ h ∈ best, h.item.id = g.item.id)

theorem nodup_ids_unique {B : List Hit} (hnd : (idsOf B).Nodup) :
    ∀ p ∈ B, ∀ q ∈ B, p.item.id = q.item.id → p = q := by
  intro p hp q hq hid
  exact List.inj_on_of_nodup_map hnd hp hq hid

theorem mergeInv_step {P B : List Hit} (x : Hit) (hInv : MergeInv P B) :
    MergeInv (P ++ [x]) (updateBest B x) := by
  obtain ⟨hnd, hmem, hcov⟩ := hInv
  unfold updateBest
  cases hfind : B.find? (fun p => decide (p.item.id = x.item.id)) with
  | none =>
    have hnone : ∀ p ∈ B, p.item.id ≠ x.item.id := by
      intro p hp
      have := List.find?_eq_none.mp hfind p hp
      simpa using this
    refine ⟨?_, ?_, ?_⟩
    · unfold idsOf
      rw [List.map_append]
      refine List.Nodup.append hnd (by simp) ?_
      intro a haB haX
      simp only [List.map_cons, List.map_nil, List.mem_singleton] at haX
      subst haX
      obtain ⟨p, hp, hpx⟩ := List.mem_map.mp haB
      exact hnone p hp hpx
    · intro h hh
      rcases List.mem_append.mp hh with hB | hx
      · obtain ⟨hhp, hub⟩ := hmem h hB
        refine ⟨List.mem_append_left _ hhp, ?_⟩
        intro g hg hid
        rcases List.mem_append.mp hg with hgP | hgx
        · exact hub g hgP hid
        · have hgeq : g = x := by simpa using hgx
          rw [hgeq] at hid
          exact absurd hid.symm (hnone h hB)
      · have hx' : h = x := by simpa using hx
        refine ⟨List.mem_append_right _ (by simp [hx']), ?_⟩
        intro g hg hid
        rcases List.mem_append.mp hg with hgP | hgx
        · obtain ⟨p, hp, hpid⟩ := hcov g hgP
          rw [hx'] at hid
          exact absurd (hpid.trans hid) (hnone p hp)
        · have hgeq : g = x := by simpa using hgx
          rw [hgeq, hx']
    · intro g hg
      rcases List.mem_append.mp hg with hgP | hgx
      · obtain ⟨h, hh, hid⟩ := hcov g hgP
        exact ⟨h, List.mem_append_left _ hh, hid⟩
      · have hgeq : g = x := by simpa using hgx
        rw [hgeq]
        exact ⟨x, List.mem_append_right _ (by simp), rfl⟩
  | some prev =>
    have hprevB : prev ∈ B := List.mem_of_find?_eq_some hfind
    have hprevid : prev.item.id = x.item.id := by simpa using List.find?_some hfind
    have hfid : ∀ p : Hit,
        ((if p.item.id = x.item.id then x else p) : Hit).item.id = p.item.id := by
      intro p
      by_cases h : p.item.id = x.item.id
      · rw [if_pos h]; exact h.symm
      · rw [if_neg h]
    show MergeInv (P ++ [x]) (if prev.score < x.score then
      B.map (fun p => if p.item.id = x.item.id then x else p) else B)
    by_cases hsc : prev.score < x.score
    · rw [if_pos hsc]
      have hids : idsOf (B.map (fun p => if p.item.id = x.item.id then x else p)) =
          idsOf B := by
        unfold idsOf
        rw [List.map_map]
        exact List.map_congr_left (fun p _ => hfid p)
      refine ⟨by rw [hids]; exact hnd, ?_, ?_⟩
      · intro h hh
        obtain ⟨p, hp, rfl⟩ := List.mem_map.mp hh
        by_cases hpid : p.item.id = x.item.id
        · rw [if_pos hpid]
          refine ⟨List.mem_append_right _ (by simp), ?_⟩
          intro g hg hid
          rcases List.mem_append.mp hg with hgP | hgx
          · have hidp : g.item.id = prev.item.id := hid.trans hprevid.symm
            exact ((hmem prev hprevB).2 g hgP hidp).trans hsc.le
          · have hgeq : g = x := by simpa using hgx
            rw [hgeq]
        · rw [if_neg hpid]
          obtain ⟨hpP, hub⟩ := hmem p hp
          refine ⟨List.mem_append_left _ hpP, ?_⟩
          intro g hg hid
          rcases List.mem_append.mp hg with hgP | hgx
          · exact hub g hgP hid
          · have hgeq : g = x := by simpa using hgx
            rw [hgeq] at hid
            exact absurd hid.symm hpid
      · intro g hg
        rcases List.mem_append.mp hg with hgP | hgx
        · obtain ⟨h, hh, hid⟩ := hcov g hgP
          refine ⟨(if h.item.id = x.item.id then x else h),
            List.mem_map_of_mem _ hh, ?_⟩
          rw [hfid h]
          exact hid
        · have hgeq : g = x := by simpa using hgx
          rw [hgeq]
          refine ⟨(if prev.item.id = x.item.id then x else prev),
            List.mem_map_of_mem _ hprevB, ?_⟩
          rw [if_pos hprevid]
    · rw [if_neg hsc]
      refine ⟨hnd, ?_, ?_⟩
      · intro h hh
        obtain ⟨hhP, hub⟩ := hmem h hh
        refine ⟨List.mem_append_left _ hhP, ?_⟩
        intro g hg hid
        rcases List.mem_append.mp hg with hgP | hgx
        · exact hub g hgP hid
        · have hgeq : g = x := by simpa using hgx
          rw [hgeq] at hid ⊢
          have hhp : h = prev :=
            nodup_ids_unique hnd h hh prev hprevB (hid.symm.trans hprevid.symm)
          rw [hhp]
          exact not_lt.mp hsc
      · intro g hg
        rcases List.mem_append.mp hg with hgP | hgx
        · exact hcov g hgP
        · have hgeq : g = x := by simpa using hgx
          rw [hgeq]
          exact ⟨prev, hprevB, hprevid⟩

theorem mergeInv_foldl : ∀ (l P B : List Hit), MergeInv P B →
    MergeInv (P ++ l) (l.foldl updateBest B) := by
  intro l
  induction l with
  | nil => intro P B h; simpa using h
  | cons x xs ih =>
    intro P B h
    have hstep := mergeInv_step x h
    have := ih (P ++ [x]) (updateBest B x) hstep
    simpa [List.append_assoc] using this

theorem mergeInv_perQuery (items : List Item) (qs : List (List ℚ)) (pk : Nat) :
    MergeInv (perQueryHits items qs pk)
      ((perQueryHits items qs pk).foldl updateBest []) := by
  have h0 : MergeInv [] [] := by
    refine ⟨List.nodup_nil, ?_, ?_⟩
    · intro h hh; cases hh
    · intro g hg; cases hg
  simpa using mergeInv_foldl (perQueryHits items qs pk) [] [] h0

theorem searchMulti_foldl (items : List Item) (pk : Nat) :
    ∀ (qs : List (List ℚ)) (B : List Hit),
      qs.foldl (fun b q => (search items q pk).foldl updateBest b) B =
        (perQueryHits items qs pk).foldl updateBest B := by
  intro qs
  induction qs with
  | nil => intro B; rfl
  | cons q rest ih =>
    intro B
    simp only [List.foldl_cons, perQueryHits, List.foldl_append]
    exact ih _

theorem mem_idsOf_perQueryHits (items : List Item) (pk : Nat) :
    ∀ (qs : List (List ℚ)) (id : String),
      id ∈ idsOf (perQueryHits items qs pk) ↔
        ∃ q ∈ qs, id ∈ idsOf (search items q pk) := by
  intro qs
  induction qs with
  | nil => intro id; simp [perQueryHits, idsOf]
  | cons q rest ih =>
    intro id
    show id ∈ idsOf (search items q pk ++ perQueryHits items rest pk) ↔ _
    unfold idsOf
    rw [List.map_append, List.mem_append]
    constructor
    · rintro (h | h)
      · exact ⟨q, List.mem_cons_self q rest, h⟩
      · obtain ⟨q', hq', hid⟩ := (ih id).mp h
        exact ⟨q', List.mem_cons_of_mem _ hq', hid⟩
    · rintro ⟨q', hq', hid⟩
      rcases List.mem_cons.mp hq' with rfl | hq'
      · exact Or.inl hid
      · exact Or.inr ((ih id).mpr ⟨q', hq', hid⟩)

theorem mem_take_iff_idxOfStr (a : String) : ∀ (l : List String) (n : Nat),
    a ∈ l.take n ↔ a ∈ l ∧ idxOfStr a l < n := by
  intro l
  induction l with
  | nil => intro n; simp
  | cons x xs ih =>
    intro n
    cases n with
    | zero => simp
    | succ n =>
      have htake : (x :: xs).take (n + 1) = x :: xs.take n := rfl
      rw [htake]
      by_cases hx : x = a
      · simp only [List.mem_cons, idxOfStr, if_pos hx]
        constructor
        · intro _
          exact ⟨Or.inl hx.symm, by omega⟩
        · intro _
          exact Or.inl hx.symm
      · simp only [List.mem_cons, idxOfStr, if_neg hx]
        constructor
        · rintro (rfl | h)
          · exact absurd rfl hx
          · obtain ⟨hmem, hidx⟩ := (ih n).mp h
            exact ⟨Or.inr hmem, by omega⟩
        · rintro ⟨(rfl | hmem), hidx⟩
          · exact absurd rfl hx
          · exact Or.inr ((ih n).mpr ⟨hmem, by omega⟩)

/-- C1: `searchMulti` returns exactly the first `finalTopK` of the merged,
score-sorted candidates; a chunk id appears in the result iff it appears in
the per-query top-`perQueryTopK` of at least one query vector and its rank
in the merged score-sorted candidate list is within the global top
`finalTopK`; every merged candidate is one of the per-query hits and its
reported merged score is the maximum score observed for its id across all
variant searches; and every id from any variant's per-query top-K is
represented among the merged candidates. -/
theorem searchMulti_contract (items : List Item) (qs : List (List ℚ)) (pk fk : Nat) :
    searchMulti items qs pk fk = (mergedSorted items qs pk).take fk ∧
    (∀ id, id ∈ idsOf (searchMulti items qs pk fk) ↔
      ((∃ q ∈ qs, id ∈ idsOf (search items q pk)) ∧
        idxOfStr id (idsOf (mergedSorted items qs pk)) < fk)) ∧
    (∀ h ∈ mergedSorted items qs pk,
      h ∈ perQueryHits items qs pk ∧
      ∀ g ∈ perQueryHits items qs pk, g.item.id = h.item.id → g.score ≤ h.score) ∧
    (∀ g ∈ perQueryHits items qs pk, ∃ h ∈ mergedSorted items qs pk,
      h.item.id = g.item.id) := by
  obtain ⟨hnd, hmem, hcov⟩ := mergeInv_perQuery items qs pk
  have hsm : searchMulti items qs pk fk = (mergedSorted items qs pk).take fk := by
    unfold searchMulti mergedSorted
    rw [searchMulti_foldl]
  refine ⟨hsm, ?_, ?_, ?_⟩
  · intro id
    rw [hsm]
    have h1 : idsOf ((mergedSorted items qs pk).take fk) =
        (idsOf (mergedSorted items qs pk)).take fk := by
      unfold idsOf
      rw [List.map_take]
    rw [h1, mem_take_iff_idxOfStr]
    refine and_congr_left' ?_
    constructor
    · intro h
      obtain ⟨h', hh', rfl⟩ := List.mem_map.mp h
      have hb : h' ∈ (perQueryHits items qs pk).foldl updateBest [] :=
        (mem_stableSort _ _ _).mp hh'
      have hp : h' ∈ perQueryHits items qs pk := (hmem h' hb).1
      exact (mem_idsOf_perQueryHits items pk qs _).mp (List.mem_map_of_mem _ hp)
    · intro h
      have hid : id ∈ idsOf (perQueryHits items qs pk) :=
        (mem_idsOf_perQueryHits items pk qs id).mpr h
      obtain ⟨g, hg, rfl⟩ := List.mem_map.mp hid
      obtain ⟨h', hh', hid'⟩ := hcov g hg
      have : h' ∈ mergedSorted items qs pk := (mem_stableSort _ _ _).mpr hh'
      exact hid' ▸ List.mem_map_of_mem _ this
  · intro h hh
    exact hmem h ((mem_stableSort _ _ _).mp hh)
  · intro g hg
    obtain ⟨h, hh, hid⟩ := hcov g hg
    exact ⟨h, (mem_stableSort _ _ _).mpr hh, hid⟩

/-- Witness for C1 at a concrete one-item store and a single query vector:
the item's id appears in the final result via the membership
characterization, and its merged hit carries the maximal per-query score. -/
theorem searchMulti_contract_witness :
    "a" ∈ idsOf (searchMulti [⟨"a", "s", 0, "c", [1]⟩] [[1]] 8 25) :=
  ((searchMulti_contract [⟨"a", "s", 0, "c", [1]⟩] [[1]] 8 25).2.1 "a").mpr
    ⟨⟨[1], by decide, by decide⟩, by decide⟩
